import Mathlib

/-!
Verification development for the `gobrowse` TUI file browser
(single-file Go program `main.go`).

The definitions below are a shallow embedding of the program's pure
logic: the directory-entry comparator and sort (`sortFiles`), the
filtered visible list built by `refreshList`, the label round-trip used
by the file operations, the text-preview reader (`loadTextPreview`), the
bookmark toggle, the recursive copy (`copyPath`/`copyDir`), the
error handling of `refreshList`, and the lock discipline of
`loadFiles`/`sortFiles`.  Strings are modelled as Lean `String`s /
`List Char` (the program only manipulates them byte-wise and the claims
only involve ASCII data, where Go's byte-wise operations and Lean's
character-wise operations coincide); file contents are modelled as
`List Nat` byte sequences.
-/

/-- One directory child as the program sees it: `fs.DirEntry` exposes
`Name()` and `IsDir()`, which is all the comparator, the list labels and
the file operations use. -/
structure Entry where
  name : String
  isDir : Bool
deriving DecidableEq, Repr

/-- ASCII lower-casing of one character, modelling Go `strings.ToLower`
on the ASCII range used by the claims. -/
def lowerCh (c : Char) : Char :=
  if 'A' ≤ c ∧ c ≤ 'Z' then Char.ofNat (c.toNat + 32) else c

/-- `strings.ToLower` on a whole string, as a character list. -/
def lowerStr (s : String) : List Char := s.data.map lowerCh

/-- Go's built-in byte-wise string comparison `<`, on character lists. -/
def lexLt : List Char → List Char → Bool
  | [], [] => false
  | [], _ :: _ => true
  | _ :: _, [] => false
  | a :: as, b :: bs =>
    if a < b then true
    else if b < a then false
    else lexLt as bs

/-- The comparator passed to `sort.Slice` in `sortFiles` (main.go
147-167): directories first, then case-insensitive name comparison. -/
def fileLess (a b : Entry) : Bool :=
  if a.isDir && !b.isDir then true
  else if !a.isDir && b.isDir then false
  else lexLt (lowerStr a.name) (lowerStr b.name)

/-- One step of the insertion sort Go's `sort.Slice` performs on short
slices: the element `x` (which comes later in the input) sifts left past
every element strictly greater than it, so it lands after every element
`y` with `fileLess x y = false`. -/
def insertFile (x : Entry) : List Entry → List Entry
  | [] => [x]
  | y :: ys => if fileLess x y then x :: y :: ys else y :: insertFile x ys

/-- `sortFiles` (main.go 147-167): sorts the entry slice with
`sort.Slice` under `fileLess`.  Go's `sort.Slice` runs plain insertion
sort on slices shorter than 12 elements (and otherwise an unstable sort
that is also only guaranteed to order the slice consistently with the
comparator); the embedding is that insertion sort, processing the input
left to right. -/
def sortFiles (files : List Entry) : List Entry :=
  files.foldl (fun acc x => insertFile x acc) []

-- ## Order-theoretic facts about the comparator

theorem lexLt_irrefl : ∀ a : List Char, lexLt a a = false := by
  intro a
  induction a with
  | nil => rfl
  | cons c cs ih => simp [lexLt, ih]

theorem lexLt_trans : ∀ a b c : List Char,
    lexLt a b = true → lexLt b c = true → lexLt a c = true := by
  intro a
  induction a with
  | nil =>
    intro b c hab hbc
    cases b with
    | nil => simp [lexLt] at hab
    | cons y ys =>
      cases c with
      | nil => simp [lexLt] at hbc
      | cons z zs => simp [lexLt]
  | cons x xs ih =>
    intro b c hab hbc
    cases b with
    | nil => simp [lexLt] at hab
    | cons y ys =>
      cases c with
      | nil => simp [lexLt] at hbc
      | cons z zs =>
        simp only [lexLt] at hab hbc ⊢
        rcases lt_trichotomy x y with hxy | hxy | hxy
        · rcases lt_trichotomy y z with hyz | hyz | hyz
          · simp [lt_trans hxy hyz]
          · subst hyz; simp [hxy]
          · simp [hyz, not_lt_of_gt hyz] at hbc
        · subst hxy
          rcases lt_trichotomy x z with hxz | hxz | hxz
          · simp [hxz]
          · subst hxz
            simp only [lt_irrefl, if_false] at hab hbc ⊢
            exact ih _ _ hab hbc
          · simp [hxz, not_lt_of_gt hxz] at hbc
        · simp [hxy, not_lt_of_gt hxy] at hab

theorem lexLt_trichotomy : ∀ a b : List Char,
    lexLt a b = true ∨ lexLt b a = true ∨ a = b := by
  intro a
  induction a with
  | nil =>
    intro b
    cases b with
    | nil => right; right; rfl
    | cons y ys => left; rfl
  | cons x xs ih =>
    intro b
    cases b with
    | nil => right; left; rfl
    | cons y ys =>
      rcases lt_trichotomy x y with hxy | hxy | hxy
      · left; simp [lexLt, hxy]
      · subst hxy
        rcases ih ys with h | h | h
        · left; simp [lexLt, h]
        · right; left; simp [lexLt, h]
        · right; right; rw [h]
      · right; left; simp [lexLt, hxy]

theorem lexLt_asymm {a b : List Char} (h : lexLt a b = true) :
    lexLt b a = false := by
  cases hba : lexLt b a with
  | false => rfl
  | true =>
    have htr := lexLt_trans a b a h hba
    rw [lexLt_irrefl] at htr
    simp at htr

theorem lexLt_not_trans {a b c : List Char}
    (h1 : lexLt b a = false) (h2 : lexLt c b = false) :
    lexLt c a = false := by
  cases hca : lexLt c a with
  | false => rfl
  | true =>
    rcases lexLt_trichotomy a b with hab | hab | hab
    · have htr := lexLt_trans c a b hca hab
      rw [h2] at htr
      simp at htr
    · rw [h1] at hab
      simp at hab
    · subst hab
      rw [h2] at hca
      simp at hca

theorem fileLess_asymm {a b : Entry} (h : fileLess a b = true) :
    fileLess b a = false := by
  cases ha : a.isDir <;> cases hb : b.isDir <;>
      simp [fileLess, ha, hb] at h ⊢ <;>
    exact lexLt_asymm h

theorem fileLess_le_trans {x y z : Entry}
    (h1 : fileLess y x = false) (h2 : fileLess z y = false) :
    fileLess z x = false := by
  cases hx : x.isDir <;> cases hy : y.isDir <;> cases hz : z.isDir <;>
      simp [fileLess, hx, hy, hz] at h1 h2 ⊢ <;>
    exact lexLt_not_trans h1 h2

-- ## Insertion sort facts

theorem insertFile_perm (x : Entry) :
    ∀ l : List Entry, (insertFile x l).Perm (x :: l) := by
  intro l
  induction l with
  | nil => simp [insertFile]
  | cons y ys ih =>
    by_cases h : fileLess x y = true
    · simp [insertFile, h]
    · rw [Bool.not_eq_true] at h
      simp only [insertFile, h, Bool.false_eq_true, if_false]
      exact (ih.cons y).trans (List.Perm.swap x y ys)

theorem insertFile_mem {z x : Entry} {l : List Entry}
    (h : z ∈ insertFile x l) : z = x ∨ z ∈ l := by
  have := (insertFile_perm x l).mem_iff.mp h
  simpa using this

theorem insertFile_pairwise {x : Entry} {l : List Entry}
    (h : l.Pairwise (fun a b => fileLess b a = false)) :
    (insertFile x l).Pairwise (fun a b => fileLess b a = false) := by
  induction l with
  | nil => simp [insertFile]
  | cons y ys ih =>
    rcases List.pairwise_cons.mp h with ⟨hy, hys⟩
    by_cases hxy : fileLess x y = true
    · simp only [insertFile, hxy, if_true]
      refine List.pairwise_cons.mpr ⟨?_, h⟩
      intro z hz
      rcases List.mem_cons.mp hz with rfl | hz
      · exact fileLess_asymm hxy
      · exact fileLess_le_trans (fileLess_asymm hxy) (hy z hz)
    · rw [Bool.not_eq_true] at hxy
      simp only [insertFile, hxy, Bool.false_eq_true, if_false]
      refine List.pairwise_cons.mpr ⟨?_, ih hys⟩
      intro z hz
      rcases insertFile_mem hz with rfl | hz
      · exact hxy
      · exact hy z hz

theorem sortFiles_perm (l : List Entry) : (sortFiles l).Perm l := by
  suffices h : ∀ l acc : List Entry,
      (l.foldl (fun acc x => insertFile x acc) acc).Perm (acc ++ l) by
    simpa [sortFiles] using h l []
  intro l
  induction l with
  | nil => intro acc; simp
  | cons x xs ih =>
    intro acc
    have h1 := ih (insertFile x acc)
    have h2 : (insertFile x acc ++ xs).Perm ((x :: acc) ++ xs) :=
      (insertFile_perm x acc).append_right xs
    have h3 : ((x :: acc) ++ xs).Perm (acc ++ x :: xs) :=
      List.Perm.symm List.perm_middle
    simpa using (h1.trans (h2.trans h3))

theorem sortFiles_pairwise (l : List Entry) :
    (sortFiles l).Pairwise (fun a b => fileLess b a = false) := by
  suffices h : ∀ l acc : List Entry,
      acc.Pairwise (fun a b => fileLess b a = false) →
      (l.foldl (fun acc x => insertFile x acc) acc).Pairwise
        (fun a b => fileLess b a = false) by
    exact h l [] (by simp)
  intro l
  induction l with
  | nil => intro acc hacc; simpa using hacc
  | cons x xs ih =>
    intro acc hacc
    exact ih (insertFile x acc) (insertFile_pairwise hacc)

-- ## Visible list (refreshList, main.go 169-203) and label round-trip

/-- The markup tag `refreshList` puts in front of a directory's name
when building its list label. -/
def dirTag : String := "[::b][DIR] "

/-- The synthetic parent item label added by `refreshList`. -/
def goUpLabel : String := "[..] Go up"

/-- The list label of an entry: `"[::b][DIR] " + name` for a directory,
the bare name for a file (main.go 180-183). -/
def entryLabel (e : Entry) : String :=
  if e.isDir then dirTag ++ e.name else e.name

/-- `strings.Contains(hay, needle)`: substring test, on character
lists. -/
def containsSub (needle : List Char) : List Char → Bool
  | [] => needle.isEmpty
  | c :: t => needle.isPrefixOf (c :: t) || containsSub needle t

/-- The filter test of `refreshList` (main.go 177): an entry is skipped
iff the search term is nonempty and the lower-cased name does not
contain the lower-cased term. -/
def keepEntry (searchTerm : String) (e : Entry) : Bool :=
  searchTerm.data.isEmpty
    || containsSub (lowerStr searchTerm) (lowerStr e.name)

/-- The visible item labels built by `refreshList` (main.go 174-195):
the filtered entries in order, and then — after the loop — the
`"[..] Go up"` item appended whenever the current path has a parent
(`filepath.Dir(currentDir) != currentDir`, passed here as
`hasParent`). -/
def visibleLabels (files : List Entry) (searchTerm : String)
    (hasParent : Bool) : List String :=
  (files.filter (keepEntry searchTerm)).map entryLabel
    ++ (if hasParent then [goUpLabel] else [])

/-- Modelled from the spec's words (§3 VisibleList): the same filtered
list but `with a synthetic "parent" entry PREPENDED when currentPath has
a parent`.  Stated only to compare against `visibleLabels`, which is
what the code builds. -/
def specVisibleLabels (files : List Entry) (searchTerm : String)
    (hasParent : Bool) : List String :=
  (if hasParent then [goUpLabel] else [])
    ++ (files.filter (keepEntry searchTerm)).map entryLabel

/-- Go `strings.TrimPrefix(s, tag)`: drops `tag` from the front of `s`
when it is a prefix, otherwise returns `s` unchanged. -/
def trimPrefixStr (s tag : String) : String :=
  if tag.data.isPrefixOf s.data then ⟨s.data.drop tag.data.length⟩ else s

/-- How the file operations (`deleteSelection`, `renameSelection`,
`copySelection`, `moveSelection`, the `KeyOpen` handler) recover an
entry name from the selected list label:
`strings.TrimPrefix(label, "[::b][DIR] ")` (main.go 358, 381, 405, 427,
613). -/
def selectionName (label : String) : String := trimPrefixStr label dirTag

/-- `filepath.Join(dir, name)` for the simple shapes the claims use (a
clean absolute directory and a separator-free name). -/
def joinPath (dir name : String) : String := dir ++ "/" ++ name

/-- The filesystem path an operation acts on for the selected label. -/
def selectionPath (dir label : String) : String :=
  joinPath dir (selectionName label)

-- ## Rename validation (renameSelection, main.go 375-397)

/-- One ASCII/Latin-1 whitespace character in the sense of Go
`unicode.IsSpace` (the ranges relevant to the claims). -/
def isSpaceCh (c : Char) : Bool :=
  c = ' ' || c = '\t' || c = '\n' || c.toNat = 11 || c.toNat = 12
    || c = '\r' || c.toNat = 133 || c.toNat = 160

/-- Go `strings.TrimSpace`: strips whitespace from both ends. -/
def goTrimSpace (s : String) : String :=
  ⟨((s.data.dropWhile isSpaceCh).reverse.dropWhile isSpaceCh).reverse⟩

/-- What a rename attempt does to the filesystem: either the input was
rejected before any filesystem call, or `os.Rename(old, new)` was
invoked. -/
inductive RenameOutcome where
  | noFsCall : RenameOutcome
  | renameCall : String → String → RenameOutcome
deriving DecidableEq, Repr

/-- The decision logic of `renameSelection`'s input callback (main.go
384-389): `if !ok || strings.TrimSpace(text) == "" { return }` and
otherwise `os.Rename(old, filepath.Join(currentDir, text))`. -/
def renameSelection (currentDir name text : String) (ok : Bool) :
    RenameOutcome :=
  if ok = false ∨ goTrimSpace text = "" then RenameOutcome.noFsCall
  else RenameOutcome.renameCall (joinPath currentDir name)
    (joinPath currentDir text)

-- ## Bookmarks (toggleBookmark, main.go 495-506)

/-- `toggleBookmark`: scan the bookmark slice; when the current
directory is found, remove that occurrence and return, otherwise append
it at the end. -/
def toggleBookmark : List String → String → List String
  | [], d => [d]
  | b :: bs, d => if b = d then bs else b :: toggleBookmark bs d

-- ## Refresh error handling (refreshList / loadFiles, main.go 133-203)

/-- What `refreshList` leaves behind, given the outcome of the
`os.ReadDir` in `loadFiles`: on error `loadFiles` returns before
assigning `s.files`, `refreshList` discards the error (`_ =
s.loadFiles()`), rebuilds the list from the old entries and sets the
status to "Ready"; on success the fresh entries are sorted and the
status is also "Ready". -/
def refreshOutcome (old : List Entry)
    (readResult : Except String (List Entry)) : List Entry × String :=
  match readResult with
  | Except.error _ => (old, "Ready")
  | Except.ok entries => (sortFiles entries, "Ready")

-- ## Lock discipline of loadFiles/sortFiles (main.go 133-167)

/-- An acquire or release of the single `sync.Mutex` `s.lock`. -/
inductive LockOp where
  | lock : LockOp
  | unlock : LockOp
deriving DecidableEq, Repr

/-- Runs a straight-line sequence of mutex operations performed by one
goroutine while no other goroutine touches the mutex, starting from
held-state `m`.  A Go `sync.Mutex` is not reentrant, so a `Lock` while
the mutex is already held blocks forever — there is nobody left to
release it — which the run models as `none`. -/
def runLockOps : List LockOp → Bool → Option Bool
  | [], m => some m
  | LockOp.lock :: rest, m => if m then none else runLockOps rest true
  | LockOp.unlock :: rest, _ => runLockOps rest false

/-- The mutex operations a call to `loadFiles` performs, in order:
`s.lock.Lock()` (main.go 134), then inside `s.sortFiles()` another
`s.lock.Lock()` (main.go 148), then the deferred unlocks of `sortFiles`
and `loadFiles` as the calls return. -/
def loadFilesLockTrace : List LockOp :=
  [LockOp.lock, LockOp.lock, LockOp.unlock, LockOp.unlock]

/-- The mutex operations of a standalone `sortFiles` call. -/
def sortFilesLockTrace : List LockOp := [LockOp.lock, LockOp.unlock]

-- ## Recursive copy (copyPath / copyDir, main.go 443-491)

/-- A filesystem subtree: a file with its byte content, or a directory
with named children. -/
inductive FNode where
  | file : List Nat → FNode
  | dir : List (String × FNode) → FNode

/-- Look a child up by name in a directory's child list. -/
def lookupChild (n : String) : List (String × FNode) → Option FNode
  | [] => none
  | (k, v) :: rest => if k = n then some v else lookupChild n rest

/-- Replace the child named `n` (first occurrence), or append a new one
at the end: the effect of writing at path component `n` inside a
directory. -/
def upsertChild (n : String) (v : FNode) :
    List (String × FNode) → List (String × FNode)
  | [] => [(n, v)]
  | (k, w) :: rest =>
    if k = n then (k, v) :: rest else (k, w) :: upsertChild n v rest

/-- Remove the child named `n` (first occurrence). -/
def removeChild (n : String) :
    List (String × FNode) → List (String × FNode)
  | [] => []
  | (k, w) :: rest =>
    if k = n then rest else (k, w) :: removeChild n rest

mutual

/-- `copyPath(src, dst)` (main.go 443-467) on the subtree `src`, with
`dst` the node currently present at the destination path (`none` when
nothing is there; the destination's parent directory exists, as
`copyDir` guarantees with `os.MkdirAll` before recursing).  A file is
copied byte for byte with `os.Create`, which truncates and overwrites an
existing file but fails on an existing directory; a directory goes
through `copyDir` (main.go 469-491): `os.MkdirAll` succeeds on an
existing directory (merge) and fails on an existing file, then every
child is copied into whatever the destination currently holds under
that name.  The first error aborts the walk, as in the Go code. -/
def copyNode : FNode → Option FNode → Except String FNode
  | FNode.file _, some (FNode.dir _) =>
    Except.error "open destination: is a directory"
  | FNode.file c, some (FNode.file _) => Except.ok (FNode.file c)
  | FNode.file c, none => Except.ok (FNode.file c)
  | FNode.dir _, some (FNode.file _) =>
    Except.error "mkdir destination: not a directory"
  | FNode.dir es, some (FNode.dir des) =>
    match copyChildren es des with
    | Except.error e => Except.error e
    | Except.ok cs => Except.ok (FNode.dir cs)
  | FNode.dir es, none =>
    match copyChildren es [] with
    | Except.error e => Except.error e
    | Except.ok cs => Except.ok (FNode.dir cs)

/-- The entry loop of `copyDir` (main.go 477-489), folding the source
children over the destination directory's current child list. -/
def copyChildren : List (String × FNode) → List (String × FNode) →
    Except String (List (String × FNode))
  | [], acc => Except.ok acc
  | (n, x) :: rest, acc =>
    match copyNode x (lookupChild n acc) with
    | Except.error e => Except.error e
    | Except.ok c => copyChildren rest (upsertChild n c acc)

end

/-- A well-formed subtree: child names are distinct at every directory
level, as `os.ReadDir` guarantees for real directories. -/
inductive WFNode : FNode → Prop where
  | file : ∀ c, WFNode (FNode.file c)
  | dir : ∀ es, (es.map Prod.fst).Nodup → (∀ p ∈ es, WFNode p.2) →
      WFNode (FNode.dir es)

/-- Applying a rename attempt's filesystem effect to a directory's child
list (`os.Rename` within the current directory): no-op when no
filesystem call was made; otherwise the node moves from the old name to
the new one (failing silently here is irrelevant to the claims, which
only use the no-call case). -/
def applyFs (fs : List (String × FNode)) :
    RenameOutcome → List (String × FNode)
  | RenameOutcome.noFsCall => fs
  | RenameOutcome.renameCall old new =>
    match lookupChild old fs with
    | none => fs
    | some v => upsertChild new v (removeChild old fs)

-- ## Text preview (loadTextPreview, main.go 268-306)

/-- `PreviewMaxBytes = 200 * 1024` (main.go 42). -/
def PreviewMaxBytes : Nat := 200 * 1024

/-- `TextPreviewLines = 1000` (main.go 43). -/
def TextPreviewLines : Nat := 1000

/-- `bufio.Reader.ReadString('\n')` on the remaining file bytes:
returns the consumed line (delimiter included), the rest, and whether
the read ended the file without finding the delimiter (`io.EOF`). -/
def readLine : List Nat → List Nat × List Nat × Bool
  | [] => ([], [], true)
  | b :: bs =>
    if b = 10 then ([10], bs, false)
    else
      let r := readLine bs
      (b :: r.1, r.2.1, r.2.2)

/-- The read loop of `loadTextPreview` (main.go 281-296), fuelled by the
number of remaining bytes plus one (each iteration either stops or
consumes at least one byte, so the fuel never runs out): while
`n < PreviewMaxBytes`, read a line, append it to the buffer, add its
length to `n`; stop on any read error (only EOF here) or once the buffer
holds more than `TextPreviewLines` newlines. -/
def previewLoop : Nat → List Nat → List Nat → Nat → List Nat
  | 0, _, buf, _ => buf
  | fuel + 1, rest, buf, n =>
    if n < PreviewMaxBytes then
      let r := readLine rest
      let buf' := buf ++ r.1
      if r.2.2 then buf'
      else if TextPreviewLines < buf'.count 10 then buf'
      else previewLoop fuel r.2.1 buf' (n + r.1.length)
    else buf

/-- The marker `"\n... (truncated)"` appended at main.go 300, as
bytes. -/
def truncMarker : List Nat := "\n... (truncated)".data.map Char.toNat

/-- `loadTextPreview` (main.go 268-306) on a file's byte content: the
preview text finally handed to `s.preview.SetText`.  The marker is
appended only when the buffered text's length is EXACTLY
`PreviewMaxBytes` (`len(text) == PreviewMaxBytes`, main.go 299). -/
def loadTextPreview (content : List Nat) : List Nat :=
  let text := previewLoop (content.length + 1) content [] 0
  if text.length = PreviewMaxBytes then text ++ truncMarker else text

-- ## Preview delivery (loadTextPreview completions, main.go 303-305)

/-- One finished background preview read: the file content it read,
tagged with the sequence number of the request that started it.  The
sequence number is ghost state for stating the claim — the Go code
tracks no sequence numbers at all. -/
structure Completion where
  seq : Nat
  content : List Nat

/-- What a completed `loadTextPreview` call does when its queued update
runs (main.go 303-305): `s.preview.SetText(text)`, unconditionally
replacing whatever the preview pane showed, with no staleness check. -/
def deliverPreview (_slot : Option (Nat × List Nat)) (c : Completion) :
    Option (Nat × List Nat) :=
  some (c.seq, loadTextPreview c.content)

/-- The preview pane content after a list of background reads complete
in the given order (the UI queue serializes the updates; their order is
whatever order the goroutines finished in). -/
def runPreviewRace (completions : List Completion) :
    Option (Nat × List Nat) :=
  completions.foldl deliverPreview none

/-- `slot` is unused because the code overwrites unconditionally. -/
theorem deliverPreview_ignores_slot (s₁ s₂ : Option (Nat × List Nat))
    (c : Completion) : deliverPreview s₁ c = deliverPreview s₂ c := rfl

-- ## Preview reader facts

theorem readLine_no_nl : ∀ l : List Nat, (∀ b ∈ l, ¬ b = 10) →
    readLine l = (l, [], true) := by
  intro l
  induction l with
  | nil => intro _; rfl
  | cons b bs ih =>
    intro h
    have hb : ¬ b = 10 := h b (List.mem_cons_self b bs)
    have hbs := ih (fun x hx => h x (List.mem_cons_of_mem b hx))
    simp [readLine, hb, hbs]

/-- A file with no newline at all is read whole by the FIRST
`ReadString` call — the `n < PreviewMaxBytes` guard is only checked
before a read, so the produced text is the entire file, however large;
and the truncation marker is then appended only if the total length is
exactly `PreviewMaxBytes`. -/
theorem loadTextPreview_no_nl (l : List Nat)
    (hno : ∀ b ∈ l, ¬ b = 10) (hlen : l.length ≠ PreviewMaxBytes) :
    loadTextPreview l = l := by
  have h0 : 0 < PreviewMaxBytes := by decide
  unfold loadTextPreview
  rw [previewLoop]
  rw [readLine_no_nl l hno]
  simp [h0, hlen]

/-- C2 (code_bug): `loadTextPreview` on a text file consisting of one
newline-free line of 204801 `'a'` bytes returns all 204801 bytes — more
than the 200 KiB = 204800-byte ceiling — and appends no truncation
marker, because the marker condition `len(text) == PreviewMaxBytes`
(main.go 299) compares with `==` instead of `>=` and the read loop
(main.go 282-296) only checks the byte ceiling before a read, not the
size of what it appends.  This contradicts the claim (and the code's own
comment `Read up to PreviewMaxBytes`): the content is not capped at
200 KiB and the byte-limited result is not marked truncated. -/
theorem c2_code_result :
    loadTextPreview (List.replicate 204801 97) = List.replicate 204801 97
      ∧ PreviewMaxBytes < (List.replicate 204801 (97 : Nat)).length := by
  constructor
  · refine loadTextPreview_no_nl _ ?_ ?_
    · intro b hb
      have hb' := List.eq_of_mem_replicate hb
      subst hb'
      decide
    · rw [List.length_replicate]
      decide
  · rw [List.length_replicate]
    decide

/-- C1 (counterexample): preview requests are issued for file A (ghost
sequence number 1, content byte `97`) and then file B (sequence number
2, content byte `98`); request 1's background read completes after
request 2's.  The preview pane ends up holding request 1's — the stale —
result, because `loadTextPreview` calls `s.preview.SetText(text)`
unconditionally (main.go 303-305): the code tracks no sequence numbers
and never drops a superseded result, so the caller observes the stale
result overwriting the fresher one, contradicting the claim. -/
theorem c1_counterexample :
    runPreviewRace [Completion.mk 2 [98], Completion.mk 1 [97]]
        = some (1, [97])
      ∧ loadTextPreview [98] = [98] ∧ ([97] : List Nat) ≠ [98] := by
  refine ⟨?_, ?_, by decide⟩
  · show deliverPreview (deliverPreview none (Completion.mk 2 [98]))
        (Completion.mk 1 [97]) = some (1, [97])
    unfold deliverPreview
    rw [loadTextPreview_no_nl [97] (by decide) (by decide)]
  · exact loadTextPreview_no_nl [98] (by decide) (by decide)

/-- C1 (amended): whatever results the engine delivers, the preview pane
ends up with the result of whichever request's background read completed
LAST — not the latest-issued request.  (The sequence number is ghost
data; the code applies every completion unconditionally.) -/
theorem c1_amended (cs : List Completion) (c : Completion) :
    runPreviewRace (cs ++ [c]) = some (c.seq, loadTextPreview c.content) := by
  unfold runPreviewRace
  rw [List.foldl_append]
  rfl

-- ## C9: loadFiles self-deadlock

/-- C9 (code_bug): a call to `loadFiles` never terminates.  `loadFiles`
acquires `s.lock` (main.go 134) and, still holding it, calls
`s.sortFiles()`, which tries to acquire the same non-reentrant
`sync.Mutex` again (main.go 148) — that second `Lock` blocks forever,
since the only goroutine that could release the mutex is the one
blocked.  The model run of `loadFiles`' lock trace yields `none`
(blocked) from every initial mutex state, while a standalone
`sortFiles` call's trace completes.  The claim (termination) states the
evident intent — `defer s.lock.Unlock()` — and the code is a slip. -/
theorem c9_deadlock :
    (∀ m : Bool, runLockOps loadFilesLockTrace m = none)
      ∧ runLockOps sortFilesLockTrace false = some false := by
  refine ⟨fun m => ?_, rfl⟩
  cases m <;> rfl

-- ## C8: refresh errors are silently dropped

/-- C8 (counterexample): when the directory read in `loadFiles` fails,
`refreshList` discards the error (`_ = s.loadFiles()`, main.go 170),
keeps showing the stale entry list, and sets the status line to
"Ready" — exactly the same status a successful refresh produces.  The
failure is therefore not surfaced as status text (and nothing else
reports it); it is silently discarded, contradicting the claim.  (It is
indeed not fatal.) -/
theorem c8_counterexample :
    refreshOutcome [Entry.mk "stale.txt" false]
        (Except.error "read dir: permission denied")
      = ([Entry.mk "stale.txt" false], "Ready")
      ∧ (refreshOutcome [Entry.mk "stale.txt" false] (Except.ok [])).2
        = "Ready" :=
  ⟨rfl, rfl⟩

/-- C8 (amended): a read/enumerate failure during `refreshList` is never
fatal — the function returns normally with the previous entries — but it
is silently discarded rather than surfaced: the status text is the
ordinary "Ready", for every error. -/
theorem c8_amended (old : List Entry) (err : String) :
    refreshOutcome old (Except.error err) = (old, "Ready") := rfl

-- ## C7: toggleBookmark applied twice

theorem toggleBookmark_not_mem {p : String} : ∀ {bs : List String},
    p ∉ bs → toggleBookmark bs p = bs ++ [p] := by
  intro bs
  induction bs with
  | nil => intro _; rfl
  | cons b bs ih =>
    intro h
    rw [List.mem_cons, not_or] at h
    obtain ⟨h1, h2⟩ := h
    have hb : ¬ b = p := fun e => h1 e.symm
    simp [toggleBookmark, hb, ih h2]

theorem toggleBookmark_mid {p : String} : ∀ (l1 l2 : List String),
    p ∉ l1 → toggleBookmark (l1 ++ p :: l2) p = l1 ++ l2 := by
  intro l1
  induction l1 with
  | nil => intro l2 _; simp [toggleBookmark]
  | cons b l1 ih =>
    intro l2 h
    rw [List.mem_cons, not_or] at h
    obtain ⟨h1, h2⟩ := h
    have hb : ¬ b = p := fun e => h1 e.symm
    simp [toggleBookmark, hb, ih l2 h2]

/-- C7 (counterexample): with bookmarks `["a", "b"]`, toggling `"a"`
twice yields `["b", "a"]`, not the prior `["a", "b"]`: the first toggle
removes `"a"` from the front, the second re-APPENDS it at the end
(main.go 495-506), so the ordered, insertion-ordered bookmark set is not
returned to exactly its prior state. -/
theorem c7_counterexample :
    toggleBookmark (toggleBookmark ["a", "b"] "a") "a" = ["b", "a"]
      ∧ (["b", "a"] : List String) ≠ ["a", "b"] := by
  constructor
  · rfl
  · decide

/-- C7 (amended): on a duplicate-free bookmark list, toggling the same
path twice returns the bookmark set to its prior MEMBERSHIP — the result
is a permutation of the original list — and when the path was not
bookmarked to begin with, to exactly the original list; when the path
was already bookmarked it is moved to the end instead. -/
theorem c7_amended (bs : List String) (p : String) (h : bs.Nodup) :
    (toggleBookmark (toggleBookmark bs p) p).Perm bs
      ∧ (p ∉ bs → toggleBookmark (toggleBookmark bs p) p = bs) := by
  by_cases hp : p ∈ bs
  · obtain ⟨l1, l2, rfl⟩ := List.append_of_mem hp
    rw [List.nodup_append] at h
    obtain ⟨hn1, hn2, hdisj⟩ := h
    have hp1 : p ∉ l1 := fun hx => hdisj hx (List.mem_cons_self p l2)
    have hp2 : p ∉ l2 := (List.nodup_cons.mp hn2).1
    rw [toggleBookmark_mid l1 l2 hp1]
    have hne : p ∉ l1 ++ l2 := by
      rw [List.mem_append, not_or]; exact ⟨hp1, hp2⟩
    rw [toggleBookmark_not_mem hne]
    constructor
    · exact (List.perm_append_singleton p (l1 ++ l2)).trans
        List.perm_middle.symm
    · intro hcon; exact absurd hp hcon
  · have h1 := toggleBookmark_not_mem hp
    rw [h1]
    have h2 : toggleBookmark (bs ++ [p]) p = bs ++ [] :=
      toggleBookmark_mid bs [] hp
    rw [h2, List.append_nil]
    exact ⟨List.Perm.refl bs, fun _ => rfl⟩

/-- Witness for C7 (amended) at `["a", "b"]`, `p = "a"`. -/
theorem c7_witness :
    (toggleBookmark (toggleBookmark ["a", "b"] "a") "a").Perm ["a", "b"] :=
  (c7_amended ["a", "b"] "a" (by decide)).1

-- ## C3: sort order

/-- C3 (counterexample): the file names "a" and "A" are equal
case-insensitively but differ in case; the claimed byte-wise tie-break
would put "A" (byte 65) before "a" (byte 97), yet `sortFiles` leaves the
input order "a", "A" — the comparator (main.go 155-165) compares only the
lower-cased names and has no byte-wise tie-break, so case-equal names
are not ordered as claimed. -/
theorem c3_counterexample :
    sortFiles [Entry.mk "a" false, Entry.mk "A" false]
        = [Entry.mk "a" false, Entry.mk "A" false]
      ∧ lexLt "A".data "a".data = true
      ∧ lowerStr "A" = lowerStr "a" := by
  refine ⟨by decide, by decide, by decide⟩

/-- C3 (amended): `sortFiles` produces a permutation of its input that
is sorted directories-first and then by case-insensitive lexicographic
name order — adjacent or not, no later entry compares strictly below an
earlier one — but names that are equal case-insensitively are NOT
further ordered byte-wise (the comparator cannot distinguish them, see
the counterexample).  The last conjunct spells the comparator out:
`fileLess b a = false` says a file never precedes a directory and the
lower-cased names are in non-decreasing byte order. -/
theorem c3_amended (l : List Entry) :
    (sortFiles l).Perm l
      ∧ (sortFiles l).Pairwise (fun a b => fileLess b a = false)
      ∧ (∀ a b : Entry, fileLess b a = false ↔
          ((b.isDir = true → a.isDir = true)
            ∧ (a.isDir = b.isDir →
                lexLt (lowerStr b.name) (lowerStr a.name) = false))) := by
  refine ⟨sortFiles_perm l, sortFiles_pairwise l, ?_⟩
  intro a b
  cases ha : a.isDir <;> cases hb : b.isDir <;>
    simp [fileLess, ha, hb]

/-- Witness for C3 (amended) at a concrete two-entry listing. -/
theorem c3_witness :
    (sortFiles [Entry.mk "b.txt" false, Entry.mk "Sub" true]).Perm
      [Entry.mk "b.txt" false, Entry.mk "Sub" true]
      ∧ sortFiles [Entry.mk "b.txt" false, Entry.mk "Sub" true]
        = [Entry.mk "Sub" true, Entry.mk "b.txt" false] :=
  ⟨(c3_amended [Entry.mk "b.txt" false, Entry.mk "Sub" true]).1, by decide⟩

-- ## C4: rename input validation

/-- C4: a rename whose new name is empty or all-whitespace is rejected
by the `!ok || strings.TrimSpace(text) == ""` guard (main.go 385) before
`os.Rename` — or any other filesystem primitive — is invoked, and the
filesystem is left untouched, so the file is still at its old path.
(The spec's `InvalidName` failure is exactly this pre-filesystem
rejection.) -/
theorem c4_rename_rejected (dir name text : String) (ok : Bool)
    (h : ∀ c ∈ text.data, isSpaceCh c = true) :
    renameSelection dir name text ok = RenameOutcome.noFsCall
      ∧ ∀ fs : List (String × FNode),
          applyFs fs (renameSelection dir name text ok) = fs := by
  have hall : ∀ l : List Char, (∀ c ∈ l, isSpaceCh c = true) →
      l.dropWhile isSpaceCh = [] := by
    intro l
    induction l with
    | nil => intro _; rfl
    | cons c cs ih =>
      intro hl
      have hc : isSpaceCh c = true := hl c (List.mem_cons_self c cs)
      have ihh := ih (fun x hx => hl x (List.mem_cons_of_mem c hx))
      simp [List.dropWhile, hc, ihh]
  have hdrop : text.data.dropWhile isSpaceCh = [] := hall text.data h
  have htrim : goTrimSpace text = "" := by
    unfold goTrimSpace
    rw [hdrop]
    rfl
  have hsel : renameSelection dir name text ok = RenameOutcome.noFsCall := by
    unfold renameSelection
    rw [if_pos (Or.inr htrim)]
  refine ⟨hsel, fun fs => ?_⟩
  rw [hsel]
  rfl

/-- Witness for C4 at the spec's two test inputs, `""` and `"   "`. -/
theorem c4_witness :
    renameSelection "/home/u" "notes.txt" "" true = RenameOutcome.noFsCall
      ∧ renameSelection "/home/u" "notes.txt" "   " true
        = RenameOutcome.noFsCall :=
  ⟨(c4_rename_rejected "/home/u" "notes.txt" "" true (by decide)).1,
   (c4_rename_rejected "/home/u" "notes.txt" "   " true (by decide)).1⟩

-- ## C5: visible list

/-- C5 (counterexample): with one entry "a", an empty filter and a
parent to go up to, `refreshList` builds `["a", "[..] Go up"]` — the
parent item is appended AFTER the loop (main.go 191-195), whereas the
claim (spec §3) says it is prepended, which would give
`["[..] Go up", "a"]`. -/
theorem c5_counterexample :
    visibleLabels [Entry.mk "a" false] "" true
        ≠ specVisibleLabels [Entry.mk "a" false] "" true := by
  decide

theorem containsSub_nil_needle : ∀ hay : List Char,
    containsSub [] hay = true := by
  intro hay
  cases hay <;> simp [containsSub, List.isPrefixOf]

theorem keepEntry_eq (term : String) (e : Entry) :
    keepEntry term e = containsSub (lowerStr term) (lowerStr e.name) := by
  by_cases h : term.data.isEmpty = true
  · have hd : term.data = [] := by simpa using h
    rw [keepEntry, h, lowerStr, hd]
    simp [containsSub_nil_needle]
  · rw [Bool.not_eq_true] at h
    simp [keepEntry, h]

/-- C5 (amended): the visible label list equals exactly the entries
whose lower-cased name contains the lower-cased filter as a substring
(the empty filter passes every entry because the empty string is a
substring of everything — the explicit `searchTerm != ""` short-circuit
in the code changes nothing), in snapshot order, with the synthetic
parent label APPENDED whenever the current path has a parent; the parent
label is present for every filter string, i.e. never filtered out. -/
theorem c5_amended (files : List Entry) (term : String) (hp : Bool) :
    visibleLabels files term hp
        = (files.filter fun e =>
            containsSub (lowerStr term) (lowerStr e.name)).map entryLabel
          ++ (if hp then [goUpLabel] else [])
      ∧ goUpLabel ∈ visibleLabels files term true := by
  constructor
  · unfold visibleLabels
    have hf : files.filter (keepEntry term)
        = files.filter fun e =>
            containsSub (lowerStr term) (lowerStr e.name) :=
      List.filter_congr (fun e _ => keepEntry_eq term e)
    rw [hf]
  · unfold visibleLabels
    simp

-- ## C10: label round-trip used by the file operations

/-- C10 (counterexample): a FILE whose actual name is `"[::b][DIR] x"`
gets the bare label `"[::b][DIR] x"` (no tag is added for files), and
the operations' `strings.TrimPrefix(label, "[::b][DIR] ")` then strips
what was never added: delete/rename/copy/move/open all act on
`dir/"x"` instead of the listed file `dir/"[::b][DIR] x"`. -/
theorem c10_counterexample :
    selectionPath "/home/u" (entryLabel (Entry.mk "[::b][DIR] x" false))
        = "/home/u/x"
      ∧ joinPath "/home/u" "[::b][DIR] x" = "/home/u/[::b][DIR] x"
      ∧ ("/home/u/x" : String) ≠ "/home/u/[::b][DIR] x" := by
  refine ⟨by decide, by decide, by decide⟩

theorem isPrefixOf_append_self (l m : List Char) :
    l.isPrefixOf (l ++ m) = true := by
  induction l with
  | nil => simp [List.isPrefixOf]
  | cons c cs ih => simp [List.isPrefixOf, ih]

/-- C10 (amended): the path the operations act on equals the current
directory joined with the entry's actual name for every DIRECTORY entry
(the tag the label added is exactly what `TrimPrefix` strips, even when
the directory's own name also starts with the tag, since `TrimPrefix`
strips one occurrence), and for every file whose name does not begin
with `"[::b][DIR] "`; a file whose name does begin with that tag is
operated on at the stripped name instead (see the counterexample). -/
theorem c10_amended (e : Entry) (dir : String) :
    (e.isDir = true →
      selectionPath dir (entryLabel e) = joinPath dir e.name)
      ∧ (e.isDir = false → dirTag.data.isPrefixOf e.name.data = false →
          selectionPath dir (entryLabel e) = joinPath dir e.name) := by
  constructor
  · intro hd
    unfold selectionPath selectionName trimPrefixStr entryLabel
    rw [hd]
    simp only [if_true]
    have hpre : dirTag.data.isPrefixOf ((dirTag ++ e.name).data) = true := by
      rw [String.data_append]
      exact isPrefixOf_append_self dirTag.data e.name.data
    rw [if_pos hpre]
    have hdrop : ((dirTag ++ e.name).data).drop dirTag.data.length
        = e.name.data := by
      rw [String.data_append]
      exact List.drop_left dirTag.data e.name.data
    rw [hdrop]
  · intro hd hpre
    unfold selectionPath selectionName trimPrefixStr entryLabel
    rw [hd]
    simp only [Bool.false_eq_true, if_false]
    rw [if_neg (by rw [hpre]; exact Bool.false_ne_true)]

/-- Witness for C10 (amended): a directory `"sub"` and a file
`"a.txt"`, both resolved to the correct path. -/
theorem c10_witness :
    selectionPath "/d" (entryLabel (Entry.mk "sub" true))
        = joinPath "/d" "sub"
      ∧ selectionPath "/d" (entryLabel (Entry.mk "a.txt" false))
        = joinPath "/d" "a.txt" :=
  ⟨(c10_amended (Entry.mk "sub" true) "/d").1 rfl,
   (c10_amended (Entry.mk "a.txt" false) "/d").2 rfl (by decide)⟩

-- ## C6: recursive copy

theorem lookupChild_none_upsert {n : String} {v : FNode} :
    ∀ {acc : List (String × FNode)}, lookupChild n acc = none →
    upsertChild n v acc = acc ++ [(n, v)] := by
  intro acc
  induction acc with
  | nil => intro _; rfl
  | cons q rest ih =>
    obtain ⟨k, w⟩ := q
    intro h
    by_cases hk : k = n
    · rw [lookupChild, if_pos hk] at h
      exact absurd h (by simp)
    · rw [lookupChild, if_neg hk] at h
      rw [upsertChild, if_neg hk, ih h]
      rfl

theorem upsertChild_lookup_self {n : String} {v : FNode} :
    ∀ {l : List (String × FNode)}, lookupChild n l = some v →
    upsertChild n v l = l := by
  intro l
  induction l with
  | nil => intro h; exact absurd h (by simp [lookupChild])
  | cons q rest ih =>
    obtain ⟨k, w⟩ := q
    intro h
    by_cases hk : k = n
    · rw [lookupChild, if_pos hk] at h
      have hw : w = v := by injection h
      rw [upsertChild, if_pos hk, hw]
    · rw [lookupChild, if_neg hk] at h
      rw [upsertChild, if_neg hk, ih h]

theorem lookupChild_append_right {n : String} :
    ∀ {l1 l2 : List (String × FNode)}, lookupChild n l1 = none →
    lookupChild n (l1 ++ l2) = lookupChild n l2 := by
  intro l1
  induction l1 with
  | nil => intro l2 _; rfl
  | cons q rest ih =>
    obtain ⟨k, w⟩ := q
    intro l2 h
    by_cases hk : k = n
    · rw [lookupChild, if_pos hk] at h
      exact absurd h (by simp)
    · rw [lookupChild, if_neg hk] at h
      rw [List.cons_append, lookupChild, if_neg hk, ih h]

theorem lookupChild_self_of_nodup :
    ∀ {es : List (String × FNode)}, (es.map Prod.fst).Nodup →
    ∀ p ∈ es, lookupChild p.1 es = some p.2 := by
  intro es
  induction es with
  | nil => intro _ p hp; exact absurd hp (List.not_mem_nil p)
  | cons q rest ih =>
    obtain ⟨k, w⟩ := q
    intro hnd p hp
    rw [List.map_cons, List.nodup_cons] at hnd
    obtain ⟨hk, hrest⟩ := hnd
    rcases List.mem_cons.mp hp with rfl | hp
    · rw [lookupChild, if_pos rfl]
    · have hne : ¬ k = p.1 := by
        intro he
        refine hk ?_
        rw [he]
        exact List.mem_map.mpr ⟨p, hp, rfl⟩
      rw [lookupChild, if_neg hne]
      exact ih hrest p hp

theorem copyChildren_fresh :
    ∀ (es acc : List (String × FNode)),
      (∀ p ∈ es, copyNode p.2 none = Except.ok p.2) →
      (∀ p ∈ es, lookupChild p.1 acc = none) →
      (es.map Prod.fst).Nodup →
      copyChildren es acc = Except.ok (acc ++ es) := by
  intro es
  induction es with
  | nil => intro acc _ _ _; simp [copyChildren]
  | cons q rest ih =>
    obtain ⟨n, x⟩ := q
    intro acc hcopy hlook hnd
    have h1 : lookupChild n acc = none :=
      hlook (n, x) (List.mem_cons_self _ _)
    have h2 : copyNode x none = Except.ok x :=
      hcopy (n, x) (List.mem_cons_self _ _)
    rw [List.map_cons, List.nodup_cons] at hnd
    obtain ⟨hn, hrest⟩ := hnd
    rw [copyChildren, h1, h2]
    show copyChildren rest (upsertChild n x acc)
      = Except.ok (acc ++ (n, x) :: rest)
    rw [lookupChild_none_upsert h1]
    have hlook' : ∀ p ∈ rest, lookupChild p.1 (acc ++ [(n, x)]) = none := by
      intro p hp
      rw [lookupChild_append_right (hlook p (List.mem_cons_of_mem _ hp))]
      have hne : ¬ n = p.1 := by
        intro he
        refine hn ?_
        rw [he]
        exact List.mem_map.mpr ⟨p, hp, rfl⟩
      rw [lookupChild, if_neg hne]
      rfl
    rw [ih (acc ++ [(n, x)])
      (fun p hp => hcopy p (List.mem_cons_of_mem _ hp)) hlook' hrest]
    rw [List.append_assoc]
    rfl

theorem copyChildren_keep :
    ∀ (es acc : List (String × FNode)),
      (∀ p ∈ es, copyNode p.2 (some p.2) = Except.ok p.2) →
      (∀ p ∈ es, lookupChild p.1 acc = some p.2) →
      copyChildren es acc = Except.ok acc := by
  intro es
  induction es with
  | nil => intro acc _ _; rfl
  | cons q rest ih =>
    obtain ⟨n, x⟩ := q
    intro acc hcopy hlook
    have h1 : lookupChild n acc = some x :=
      hlook (n, x) (List.mem_cons_self _ _)
    have h2 : copyNode x (some x) = Except.ok x :=
      hcopy (n, x) (List.mem_cons_self _ _)
    rw [copyChildren, h1, h2]
    show copyChildren rest (upsertChild n x acc) = Except.ok acc
    rw [upsertChild_lookup_self h1]
    exact ih acc (fun p hp => hcopy p (List.mem_cons_of_mem _ hp))
      (fun p hp => hlook p (List.mem_cons_of_mem _ hp))

theorem copyNode_roundtrip : ∀ {src : FNode}, WFNode src →
    copyNode src none = Except.ok src
      ∧ copyNode src (some src) = Except.ok src := by
  intro src h
  induction h with
  | file c => exact ⟨rfl, rfl⟩
  | dir es hnd hwf ih =>
    constructor
    · have hfresh : copyChildren es [] = Except.ok es := by
        have hf := copyChildren_fresh es []
          (fun p hp => (ih p hp).1) (fun p _ => rfl) hnd
        simpa using hf
      rw [copyNode, hfresh]
    · have hkeep : copyChildren es es = Except.ok es :=
        copyChildren_keep es es (fun p hp => (ih p hp).2)
          (fun p hp => lookupChild_self_of_nodup hnd p hp)
      rw [copyNode, hkeep]

/-- C6: on any well-formed source subtree (distinct child names at every
level, as `os.ReadDir` guarantees), `copyPath` to a fresh destination
reproduces the whole tree with byte-identical file contents (the result
IS the source tree, children in source order); re-running the same copy
onto the just-produced destination succeeds and leaves it unchanged
(directories are merged by `os.MkdirAll`, files overwritten by
`os.Create`), rather than erroring; and copying a file over an existing
file overwrites it.  Intermediate directories are created by the
`os.MkdirAll` in `copyDir` before its children are copied, which the
model reflects by always giving a child copy a destination whose parent
directory exists. -/
theorem c6_copy (src : FNode) (h : WFNode src) :
    copyNode src none = Except.ok src
      ∧ copyNode src (some src) = Except.ok src
      ∧ ∀ c d : List Nat,
          copyNode (FNode.file c) (some (FNode.file d))
            = Except.ok (FNode.file c) :=
  ⟨(copyNode_roundtrip h).1, (copyNode_roundtrip h).2, fun _ _ => rfl⟩

/-- Witness for C6 at the spec's example tree `{a.txt, sub/b.txt}`. -/
theorem c6_witness :
    copyNode (FNode.dir [("a.txt", FNode.file [97]),
        ("sub", FNode.dir [("b.txt", FNode.file [98])])]) none
      = Except.ok (FNode.dir [("a.txt", FNode.file [97]),
        ("sub", FNode.dir [("b.txt", FNode.file [98])])])
      ∧ copyNode (FNode.dir [("a.txt", FNode.file [97]),
        ("sub", FNode.dir [("b.txt", FNode.file [98])])])
        (some (FNode.dir [("a.txt", FNode.file [97]),
          ("sub", FNode.dir [("b.txt", FNode.file [98])])]))
      = Except.ok (FNode.dir [("a.txt", FNode.file [97]),
        ("sub", FNode.dir [("b.txt", FNode.file [98])])]) := by
  have hwf : WFNode (FNode.dir [("a.txt", FNode.file [97]),
      ("sub", FNode.dir [("b.txt", FNode.file [98])])]) := by
    refine WFNode.dir _ (by decide) ?_
    intro p hp
    rcases List.mem_cons.mp hp with rfl | hp
    · exact WFNode.file _
    · rcases List.mem_cons.mp hp with rfl | hp
      · refine WFNode.dir _ (by decide) ?_
        intro q hq
        rcases List.mem_cons.mp hq with rfl | hq
        · exact WFNode.file _
        · exact absurd hq (List.not_mem_nil q)
      · exact absurd hp (List.not_mem_nil p)
  exact ⟨(c6_copy _ hwf).1, (c6_copy _ hwf).2.1⟩
